import Mathlib

/-!
Verification of the recipes-helloworld serverless handlers.

The JavaScript handlers are shallowly embedded: JSON values become the
inductive `JVal`, JavaScript objects become association lists in property
enumeration order (assignment `acc[k] = v` becomes `upsert`), truthiness
tests become `truthy`, and the platform primitives `fetch`, `atob` and
`JSON.parse` of an external body become explicit oracle parameters.
Thrown-and-caught exceptions become `Except`/`Option` control flow.
-/

/-- A JSON value as produced by `JSON.parse`: object fields are kept in
enumeration order. Numbers are modelled as integers (no claim involves
fractional arithmetic). -/
inductive JVal where
  | null : JVal
  | bool (b : Bool) : JVal
  | num (n : Int) : JVal
  | str (s : String) : JVal
  | arr (xs : List JVal) : JVal
  | obj (fields : List (String × JVal)) : JVal
deriving Repr

/-- JavaScript truthiness of a defined value: `null`, `false`, `0`, `""`
are falsy; arrays and objects are always truthy. -/
def truthyV : JVal → Bool
  | .null => false
  | .bool b => b
  | .num n => !(n == 0)
  | .str s => !(s == "")
  | .arr _ => true
  | .obj _ => true

/-- JavaScript truthiness where `none` stands for `undefined`. -/
def truthy : Option JVal → Bool
  | none => false
  | some v => truthyV v

/-- First-occurrence association-list lookup, the value a JavaScript
property read sees on an object whose fields are listed in order. -/
def lookupField : List (String × JVal) → String → Option JVal
  | [], _ => none
  | (k', v) :: rest, k => if k' == k then some v else lookupField rest k

/-- JavaScript property read `v[k]`: `undefined` (`none`) on any
non-object value. (Reads on `null` throw; call sites that can receive
`null` handle that case explicitly before using `jsGet`.) -/
def jsGet (v : JVal) (k : String) : Option JVal :=
  match v with
  | .obj fields => lookupField fields k
  | _ => none

/-- JavaScript property assignment `acc[k] = v` on an object: overwrite
the value if the key exists (keeping its position), else append.
JavaScript objects never hold a key twice, so overwriting the first
occurrence is exact. -/
def upsert : List (String × JVal) → String → JVal → List (String × JVal)
  | [], k, v => [(k, v)]
  | (k', v') :: rest, k, v =>
    if k' == k then (k', v) :: rest else (k', v') :: upsert rest k v

/-- Assigning every field of `ds` into `base` in order: the object
spread `{ ...base, ...ds }` and the body of a `reduce` that does
`acc[k] = v`. -/
def spreadInto (base : List (String × JVal)) (ds : List (String × JVal)) :
    List (String × JVal) :=
  ds.foldl (fun acc p => upsert acc p.1 p.2) base

/-- JavaScript `a || b` over possibly-undefined values: the left value
when truthy, otherwise the right. -/
def jsOr (a b : Option JVal) : Option JVal :=
  if truthy a then a else b

/-- A `||` chain over possibly-undefined values ending in a defined
default literal, e.g. `x.a || x.b || 'dflt'`. -/
def firstTruthy : List (Option JVal) → JVal → JVal
  | [], dflt => dflt
  | x :: xs, dflt =>
    match x with
    | some v => if truthyV v then v else firstTruthy xs dflt
    | none => firstTruthy xs dflt

/-- Case-sensitive substring test, JavaScript `String.prototype.includes`. -/
def hasSub : List Char → List Char → Bool
  | s, pat =>
    if pat.isPrefixOf s then true
    else
      match s with
      | [] => false
      | _ :: t => hasSub t pat

/-! ## POST /api/recipes (recipes handler, `onRequestPost`) -/

/-- The parts of an incoming POST request the handler consults: the
`content-type` header, the outcome of `await request.json()` (an
exception becomes `Except.error`), and the entries of
`Object.fromEntries(await request.formData())`. -/
structure PostReq where
  contentType : Option String
  jsonBody : Except Unit JVal
  formFields : List (String × String)

/-- Observable outcome of the POST handler: which response is returned
and, for the success path, exactly what is bound into the `INSERT`. -/
inductive PostOutcome where
  | badContentType : PostOutcome
  | missingTitle : PostOutcome
  | created (title : JVal) (details : JVal) : PostOutcome
  | serverError : PostOutcome
deriving Repr

/-- Validation and insert of the parsed recipe data: reject unless one of
`name`/`title`/`recipeName` is truthy, then bind
`recipeName || name || title || 'Untitled Recipe'` as the title and the
whole payload as the details blob. Reading a property of a `null` body
throws, which the outer catch turns into the 500 response. -/
def isNullV : JVal → Bool
  | .null => true
  | _ => false

def validateAndInsert (data : JVal) : PostOutcome :=
  if isNullV data then .serverError
  else if !(truthy (jsGet data "name")) && !(truthy (jsGet data "title")) &&
      !(truthy (jsGet data "recipeName")) then
    .missingTitle
  else
    .created
      (firstTruthy
        [jsGet data "recipeName", jsGet data "name", jsGet data "title"]
        (.str "Untitled Recipe"))
      data

/-- The POST handler: branch on content type, parse, validate, insert.
A body-parse exception propagates to the outer catch (500). The database
insert is assumed to succeed; no claim concerns the storage-failure path. -/
def postHandler (req : PostReq) : PostOutcome :=
  match req.contentType with
  | none => .badContentType
  | some ct =>
    if hasSub ct.data "application/json".data then
      match req.jsonBody with
      | .error _ => .serverError
      | .ok data => validateAndInsert data
    else if hasSub ct.data "application/x-www-form-urlencoded".data then
      validateAndInsert
        (.obj (spreadInto [] (req.formFields.map (fun p => (p.1, JVal.str p.2)))))
    else
      .badContentType

/-- HTTP status of a POST outcome. -/
def postStatus : PostOutcome → Nat
  | .badContentType => 400
  | .missingTitle => 400
  | .created _ _ => 201
  | .serverError => 500

/-- The row inserted into the recipe store, if any. -/
def postInsert : PostOutcome → Option (JVal × JVal)
  | .created t d => some (t, d)
  | _ => none

example :
    postHandler
      { contentType := some "application/json"
      , jsonBody := .ok (.obj [("name", .str "X")])
      , formFields := [] } =
    .created (.str "X") (.obj [("name", .str "X")]) := rfl

example :
    postHandler
      { contentType := some "application/json"
      , jsonBody := .ok (.obj [("recipeName", .str ""), ("name", .str "X")])
      , formFields := [] } =
    .created (.str "X") (.obj [("recipeName", .str ""), ("name", .str "X")]) := rfl

/-- The recipe data that reaches the validation line, when any does:
the parsed JSON body on the JSON branch, the form-field object on the
form branch. -/
def parsedBody (req : PostReq) : Option JVal :=
  match req.contentType with
  | none => none
  | some ct =>
    if hasSub ct.data "application/json".data then
      match req.jsonBody with
      | .error _ => none
      | .ok data => some data
    else if hasSub ct.data "application/x-www-form-urlencoded".data then
      some (.obj (spreadInto [] (req.formFields.map (fun p => (p.1, JVal.str p.2)))))
    else none

theorem postHandler_eq_validate (req : PostReq) (data : JVal)
    (h : parsedBody req = some data) :
    postHandler req = validateAndInsert data := by
  obtain ⟨ct, jb, ff⟩ := req
  cases ct with
  | none => simp [parsedBody] at h
  | some c =>
    simp only [parsedBody] at h
    simp only [postHandler]
    by_cases hj : hasSub c.data "application/json".data = true
    · rw [if_pos hj] at h ⊢
      cases jb with
      | error e => simp at h
      | ok d =>
        simp only [Option.some.injEq] at h
        subst h
        rfl
    · rw [if_neg hj] at h ⊢
      by_cases hf : hasSub c.data "application/x-www-form-urlencoded".data = true
      · rw [if_pos hf] at h ⊢
        simp only [Option.some.injEq] at h
        rw [h]
      · rw [if_neg hf] at h
        simp at h

theorem validateAndInsert_created (data t d : JVal)
    (h : validateAndInsert data = .created t d) :
    d = data ∧
      t = firstTruthy [jsGet data "recipeName", jsGet data "name", jsGet data "title"]
            (.str "Untitled Recipe") := by
  unfold validateAndInsert at h
  split at h
  · exact absurd h (by simp)
  · split at h
    · exact absurd h (by simp)
    · injection h with h1 h2
      exact ⟨h2.symm, h1.symm⟩

/-- C3 (amended): for every recipe submission on which the handler
performs an insert, the bound title is the first *truthy* of
`recipeName`, `name`, `title` (JavaScript `||`), defaulting to
"Untitled Recipe". -/
theorem post_title_first_truthy (req : PostReq) (t d : JVal)
    (h : postHandler req = .created t d) :
    t = firstTruthy [jsGet d "recipeName", jsGet d "name", jsGet d "title"]
          (.str "Untitled Recipe") := by
  have hv : validateAndInsert d = .created t d := by
    obtain ⟨ct, jb, ff⟩ := req
    cases ct with
    | none => simp [postHandler] at h
    | some c =>
      simp only [postHandler] at h
      split at h
      · cases jb with
        | error e => exact absurd h (by simp)
        | ok data =>
          have := validateAndInsert_created data t d h
          rw [this.1] at h ⊢
          exact h
      · split at h
        · have := validateAndInsert_created _ t d h
          rw [this.1] at h ⊢
          exact h
        · exact absurd h (by simp)
  have := validateAndInsert_created d t d hv
  exact this.2

/-- C3 witness: a concrete JSON submission with `name = "X"` stores
title `"X"`, which the theorem equates with the truthy-first chain. -/
theorem post_title_first_truthy_witness :
    JVal.str "X" =
      firstTruthy
        [jsGet (JVal.obj [("name", JVal.str "X")]) "recipeName",
         jsGet (JVal.obj [("name", JVal.str "X")]) "name",
         jsGet (JVal.obj [("name", JVal.str "X")]) "title"]
        (.str "Untitled Recipe") :=
  post_title_first_truthy
    { contentType := some "application/json"
    , jsonBody := .ok (.obj [("name", .str "X")])
    , formFields := [] }
    (.str "X") (.obj [("name", .str "X")]) rfl

/-- The title the claim's formula `recipeName ?? name ?? title`
(JavaScript nullish coalescing: only `null`/absent skips) would
produce; stated from the claim's words for comparison with the code. -/
def claimNullishOr (a b : Option JVal) : Option JVal :=
  match a with
  | none => b
  | some .null => b
  | some v => some v

/-- `recipeName ?? name ?? title`, as the claim words the stored title. -/
def claimNullishTitle (data : JVal) : Option JVal :=
  claimNullishOr (jsGet data "recipeName")
    (claimNullishOr (jsGet data "name") (jsGet data "title"))

/-- C3 counterexample: the body `{recipeName: "", name: "X"}` is
accepted, the claim's `recipeName ?? name ?? title` picks the present
empty string, but the code binds `"X"` (JavaScript `||` skips the empty
string). -/
theorem post_title_nullish_cex :
    postHandler
        { contentType := some "application/json"
        , jsonBody := .ok (.obj [("recipeName", .str ""), ("name", .str "X")])
        , formFields := [] } =
      .created (.str "X") (.obj [("recipeName", .str ""), ("name", .str "X")]) ∧
    claimNullishTitle (.obj [("recipeName", .str ""), ("name", .str "X")]) =
      some (.str "") ∧
    JVal.str "X" ≠ JVal.str "" := by
  refine ⟨rfl, rfl, ?_⟩
  intro hc
  injection hc with hs
  exact absurd hs (by decide)

/-- A recipe field that is absent or the empty string, the claim's
reading of "none of `name`, `title`, `recipeName` (non-empty)". -/
def absentOrEmpty (data : JVal) (k : String) : Prop :=
  jsGet data k = none ∨ jsGet data k = some (.str "")

theorem truthy_false_of_absentOrEmpty (data : JVal) (k : String)
    (h : absentOrEmpty data k) : truthy (jsGet data k) = false := by
  rcases h with h | h <;> rw [h] <;> rfl

/-- C5 (amended): a parsed body other than JSON `null` with all of
`name`, `title`, `recipeName` absent or empty yields the 400
missing-title response, and nothing is inserted. (A JSON `null` body
instead throws at the validation property read and yields a 500; see
the counterexample.) -/
theorem post_missing_title_400 (req : PostReq) (data : JVal)
    (hparse : parsedBody req = some data)
    (hnn : isNullV data = false)
    (hname : absentOrEmpty data "name")
    (htitle : absentOrEmpty data "title")
    (hrn : absentOrEmpty data "recipeName") :
    postHandler req = .missingTitle ∧
      postStatus (postHandler req) = 400 ∧
      postInsert (postHandler req) = none := by
  have h1 := postHandler_eq_validate req data hparse
  have hv : validateAndInsert data = .missingTitle := by
    unfold validateAndInsert
    rw [hnn, truthy_false_of_absentOrEmpty data "name" hname,
      truthy_false_of_absentOrEmpty data "title" htitle,
      truthy_false_of_absentOrEmpty data "recipeName" hrn]
    rfl
  rw [h1, hv]
  exact ⟨rfl, rfl, rfl⟩

/-- C5 witness: the empty JSON object body gets the 400 with no insert. -/
theorem post_missing_title_400_witness :
    postHandler
        { contentType := some "application/json"
        , jsonBody := .ok (.obj [])
        , formFields := [] } = .missingTitle ∧
      postStatus (postHandler
        { contentType := some "application/json"
        , jsonBody := .ok (.obj [])
        , formFields := [] }) = 400 ∧
      postInsert (postHandler
        { contentType := some "application/json"
        , jsonBody := .ok (.obj [])
        , formFields := [] }) = none :=
  post_missing_title_400 _ (.obj []) rfl rfl (Or.inl rfl) (Or.inl rfl) (Or.inl rfl)

/-- C5 counterexample: the body `null` is valid JSON containing none of
the three title fields, yet the handler answers 500, not 400 — reading
`recipeData.name` on `null` throws and lands in the outer catch. No
insert happens either way. -/
theorem post_null_body_500_cex :
    postHandler
        { contentType := some "application/json"
        , jsonBody := .ok JVal.null
        , formFields := [] } = .serverError ∧
    postStatus (postHandler
        { contentType := some "application/json"
        , jsonBody := .ok JVal.null
        , formFields := [] }) = 500 ∧
    jsGet JVal.null "name" = none ∧
    jsGet JVal.null "title" = none ∧
    jsGet JVal.null "recipeName" = none ∧
    postInsert (postHandler
        { contentType := some "application/json"
        , jsonBody := .ok JVal.null
        , formFields := [] }) = none ∧
    (500 : Nat) ≠ 400 :=
  ⟨rfl, rfl, rfl, rfl, rfl, rfl, by decide⟩

/-- C9: a declared-JSON body whose parse throws is caught by the outer
catch: 500 server error, not a 400, and no insert is performed. -/
theorem post_bad_json_500 (req : PostReq) (ct : String)
    (hct : req.contentType = some ct)
    (hj : hasSub ct.data "application/json".data = true)
    (hb : req.jsonBody = .error ()) :
    postHandler req = .serverError ∧
      postStatus (postHandler req) = 500 ∧
      postInsert (postHandler req) = none := by
  obtain ⟨c, jb, ff⟩ := req
  simp only at hct hb
  subst hct
  subst hb
  have hres :
      postHandler
        { contentType := some ct, jsonBody := .error (), formFields := ff } =
        .serverError := by
    simp only [postHandler]
    rw [if_pos hj]
  rw [hres]
  exact ⟨rfl, rfl, rfl⟩

/-- C9 witness at a concrete malformed-JSON request. -/
theorem post_bad_json_500_witness :
    postHandler
        { contentType := some "application/json"
        , jsonBody := .error ()
        , formFields := [] } = .serverError ∧
      postStatus (postHandler
        { contentType := some "application/json"
        , jsonBody := .error ()
        , formFields := [] }) = 500 ∧
      postInsert (postHandler
        { contentType := some "application/json"
        , jsonBody := .error ()
        , formFields := [] }) = none :=
  post_bad_json_500 _ "application/json" rfl (by decide) rfl

/-! ## GET /api/recipe (single-recipe fetch, raw-spread revision) -/

/-- `a` if defined, else `b`: the value a later lookup sees through a
chain of overwrites. -/
def orElseO (a b : Option JVal) : Option JVal :=
  match a with
  | some v => some v
  | none => b

/-- Last-occurrence lookup: the value left for a key after assigning a
field list into an object in order. -/
def lookupLast (l : List (String × JVal)) (q : String) : Option JVal :=
  lookupField l.reverse q

theorem lookupField_append (a b : List (String × JVal)) (q : String) :
    lookupField (a ++ b) q = orElseO (lookupField a q) (lookupField b q) := by
  induction a with
  | nil => rfl
  | cons p rest ih =>
    obtain ⟨k, v⟩ := p
    by_cases h : k = q <;> simp [lookupField, h, ih, orElseO]

theorem lookupLast_cons (k : String) (v : JVal) (ds : List (String × JVal))
    (q : String) :
    lookupLast ((k, v) :: ds) q =
      orElseO (lookupLast ds q) (if k == q then some v else none) := by
  unfold lookupLast
  rw [List.reverse_cons, lookupField_append]
  by_cases h : k = q <;> simp [lookupField, h]

theorem lookupField_upsert (fs : List (String × JVal)) (k : String) (v : JVal)
    (q : String) :
    lookupField (upsert fs k v) q =
      if k == q then some v else lookupField fs q := by
  induction fs with
  | nil => simp [upsert, lookupField]
  | cons p rest ih =>
    obtain ⟨k', v'⟩ := p
    by_cases h1 : k' = k
    · subst h1
      by_cases h2 : k' = q <;> simp [upsert, lookupField, h2]
    · by_cases h2 : k' = q
      · subst h2
        have hne : ¬(k = k') := fun hc => h1 hc.symm
        simp [upsert, lookupField, h1, hne]
      · simp [upsert, lookupField, h1, h2, ih]

theorem lookupField_spreadInto (ds : List (String × JVal)) :
    ∀ (base : List (String × JVal)) (q : String),
      lookupField (spreadInto base ds) q =
        orElseO (lookupLast ds q) (lookupField base q) := by
  induction ds with
  | nil => intro base q; rfl
  | cons p ds ih =>
    intro base q
    obtain ⟨k, v⟩ := p
    have hstep : spreadInto base ((k, v) :: ds) = spreadInto (upsert base k v) ds := rfl
    rw [hstep, ih, lookupField_upsert, lookupLast_cons]
    cases lookupLast ds q with
    | some w => rfl
    | none =>
      by_cases h : k = q <;> simp [orElseO, h]

theorem lookupField_eq_none_of_not_mem (l : List (String × JVal)) (q : String)
    (h : q ∉ l.map Prod.fst) : lookupField l q = none := by
  induction l with
  | nil => rfl
  | cons p rest ih =>
    obtain ⟨k, v⟩ := p
    simp only [List.map_cons, List.mem_cons] at h
    push_neg at h
    have hk : ¬(k = q) := fun hc => h.1 hc.symm
    simp [lookupField, hk, ih h.2]

theorem lookupLast_eq_lookupField (l : List (String × JVal)) (q : String)
    (h : (l.map Prod.fst).Nodup) : lookupLast l q = lookupField l q := by
  induction l with
  | nil => rfl
  | cons p rest ih =>
    obtain ⟨k, v⟩ := p
    simp only [List.map_cons, List.nodup_cons] at h
    rw [lookupLast_cons, ih h.2]
    by_cases hq : k = q
    · subst hq
      rw [lookupField_eq_none_of_not_mem rest k h.1]
      simp [lookupField, orElseO]
    · simp [lookupField, hq]
      cases lookupField rest q <;> rfl

/-- The response object of the raw-spread revision of `/api/recipe`:
column-derived fields first, then every field of the deserialized
details blob assigned over them. -/
def singleRecipeResponse (rid rtitle rcat rcreated : JVal)
    (details : List (String × JVal)) : List (String × JVal) :=
  spreadInto
    [("id", rid), ("name", rtitle), ("title", rtitle), ("recipeName", rtitle),
     ("category", rcat), ("created_at", rcreated)]
    details

/-- C6: when the details blob has a `title` field, the response's
`title` is the blob's value, not the column-derived one — the spread
comes after the synonym keys. -/
theorem single_recipe_title_from_details (rid rtitle rcat rcreated : JVal)
    (details : List (String × JVal)) (v : JVal)
    (hnd : (details.map Prod.fst).Nodup)
    (ht : lookupField details "title" = some v) :
    lookupField (singleRecipeResponse rid rtitle rcat rcreated details) "title" =
      some v := by
  unfold singleRecipeResponse
  rw [lookupField_spreadInto, lookupLast_eq_lookupField _ _ hnd, ht]
  rfl

/-- C6 witness: a blob title `"D"` overrides the column title `"C"`. -/
theorem single_recipe_title_from_details_witness :
    lookupField
        (singleRecipeResponse (.num 1) (.str "C") .null (.str "2024")
          [("title", .str "D")])
        "title" = some (.str "D") :=
  single_recipe_title_from_details (.num 1) (.str "C") .null (.str "2024")
    [("title", .str "D")] (.str "D") (by decide) rfl

/-! ## GET /api/recipes listing (summary rows) -/

/-- The `summary.description` computation of a listed row:
`details.description ? details.description.substring(0, 100) : null`.
Calling `.substring` on a truthy non-string throws (`Except.error`),
which would abort the whole request with a 500. -/
def summaryDescription (details : JVal) : Except Unit JVal :=
  if truthy (jsGet details "description") then
    match jsGet details "description" with
    | some (.str s) => .ok (.str (String.mk (s.data.take 100)))
    | _ => .error ()
  else .ok .null

/-- C7 (amended): a listed row's `summary.description` is `null`
whenever the details blob's `description` is absent or falsy (in
particular the present-but-empty string), and for a non-empty string
description it is the first at-most-100 characters of it. -/
theorem summary_description_truncation (details : JVal) :
    (truthy (jsGet details "description") = false →
      summaryDescription details = .ok .null) ∧
    (∀ s : String, jsGet details "description" = some (.str s) → s ≠ "" →
      summaryDescription details = .ok (.str (String.mk (s.data.take 100))) ∧
        (s.data.take 100).length ≤ 100) := by
  constructor
  · intro h
    simp [summaryDescription, h]
  · intro s hs hne
    refine ⟨?_, ?_⟩
    · simp [summaryDescription, hs, truthy, truthyV, hne]
    · have hlen : (s.data.take 100).length = min 100 s.data.length :=
        List.length_take _ _
      omega

/-- C7 witness: absent description gives `null`; `"hi"` is kept whole
and is within the 100-character bound. -/
theorem summary_description_truncation_witness :
    summaryDescription (JVal.obj []) = .ok .null ∧
    summaryDescription (JVal.obj [("description", JVal.str "hi")]) =
      .ok (.str (String.mk ("hi".data.take 100))) ∧
    ("hi".data.take 100).length ≤ 100 := by
  refine ⟨(summary_description_truncation (JVal.obj [])).1 rfl, ?_, ?_⟩
  · exact ((summary_description_truncation
      (JVal.obj [("description", JVal.str "hi")])).2 "hi" rfl (by decide)).1
  · exact ((summary_description_truncation
      (JVal.obj [("description", JVal.str "hi")])).2 "hi" rfl (by decide)).2

/-- C7 counterexample: a present-but-empty `description` field yields
`null`, not a (string) prefix — the code tests truthiness, not
presence. -/
theorem summary_description_empty_cex :
    jsGet (JVal.obj [("description", JVal.str "")]) "description" =
      some (JVal.str "") ∧
    summaryDescription (JVal.obj [("description", JVal.str "")]) = .ok .null ∧
    JVal.null ≠ JVal.str "" :=
  ⟨rfl, rfl, fun h => nomatch h⟩

/-! ## GET /api/auth/me (identity resolution) -/

/-- The configured OAuth client identifier (`CLIENT_ID` constant). -/
def CLIENT_ID : String :=
  "184950928765-22nhslddgetmmnfl8kl728n6fv0bg7hu.apps.googleusercontent.com"

/-- The resolved identity object. Fields are JavaScript values; `none`
is `undefined` (the introspection path can omit fields). -/
structure User where
  email : Option JVal
  name : Option JVal
  picture : Option JVal
  email_verified : Option JVal
deriving Repr

/-- Outcome of `fetch` + `response.json()` on the introspection URL for
a given token: network throw, non-ok HTTP status, body-parse throw, or
a parsed JSON body. -/
inductive FetchResult where
  | netErr : FetchResult
  | httpErr (status : Nat) : FetchResult
  | jsonErr : FetchResult
  | ok (data : JVal) : FetchResult

/-- `data.aud !== CLIENT_ID` negated: the audience claim is exactly the
configured client id string. -/
def audOk (data : JVal) : Bool :=
  match jsGet data "aud" with
  | some (.str s) => s == CLIENT_ID
  | _ => false

/-- The identity `verifyGoogleToken` builds from an accepted
introspection response: `name` is `data.name || data.email`. -/
def mkGoogleUser (data : JVal) : User :=
  { email := jsGet data "email"
  , name := jsOr (jsGet data "name") (jsGet data "email")
  , picture := jsGet data "picture"
  , email_verified := jsGet data "email_verified" }

/-- `verifyGoogleToken`: fetch the introspection endpoint; `null` on any
throw, non-ok status, error field, or audience mismatch; otherwise the
identity from the response. A `null` JSON body throws at the
`data.error` read and is caught (`null`). -/
def verifyGoogleToken (oracle : String → FetchResult) (token : String) :
    Option User :=
  match oracle token with
  | .netErr => none
  | .httpErr _ => none
  | .jsonErr => none
  | .ok data =>
    if isNullV data then none
    else if truthy (jsGet data "error") then none
    else if audOk data then some (mkGoogleUser data)
    else none

/-- The two global `replace` calls mapping `'-'` to `'+'` and `'_'` to
`'/'`: undo the base64url alphabet before `atob`. -/
def b64fixChars (cs : List Char) : List Char :=
  cs.map (fun c => if c == '-' then '+' else if c == '_' then '/' else c)

/-- JavaScript `String.prototype.split('.')`: empty segments kept. -/
def splitDot : List Char → List (List Char)
  | [] => [[]]
  | c :: rest =>
    match splitDot rest with
    | s :: ss => if c == '.' then [] :: s :: ss else (c :: s) :: ss
    | [] => [[]]

/-- `parts[1]` of `jwt.split('.')` when there are exactly three parts
(`parts.length !== 3` is rejected first). -/
def payloadSegment (jwt : String) : Option (List Char) :=
  match splitDot jwt.data with
  | [_, p, _] => some p
  | _ => none

/-- The identity `parseCloudflareAccessJWT` builds from a decoded
payload: every field is a `||` chain ending in a literal, and
`email_verified` is the literal `true`. -/
def mkCFUser (payload : JVal) : User :=
  { email := some (firstTruthy [jsGet payload "email", jsGet payload "sub"]
      (.str "unknown@user"))
  , name := some (firstTruthy
      [jsGet payload "name", jsGet payload "given_name",
       jsGet payload "family_name", jsGet payload "email"] (.str "User"))
  , picture := some (firstTruthy [jsGet payload "picture"] .null)
  , email_verified := some (.bool true) }

/-- `parseCloudflareAccessJWT`: split on dots, require three parts,
decode the middle part (the `dec` oracle is `JSON.parse ∘ atob`; a
throw in either is `none` and is caught), build the identity with no
signature check. Reading fields of a `null` payload throws (caught). -/
def parseCloudflareAccessJWT (dec : String → Option JVal) (jwt : String) :
    Option User :=
  match payloadSegment jwt with
  | none => none
  | some p =>
    match dec (String.mk (b64fixChars p)) with
    | none => none
    | some payload => if isNullV payload then none else some (mkCFUser payload)

/-- JavaScript `\s`-class test used by the cookie regex. -/
def isSpaceCh (c : Char) : Bool := c.isWhitespace

/-- The capture `([^;]+)` after `=\s*`: the run up to the next `;`,
with leading whitespace given to the greedy `\s*` except that at least
one character must remain for the `+`. -/
def cookieValue (rest : List Char) : Option (List Char) :=
  let w := rest.takeWhile (fun c => !(c == ';'))
  if w.isEmpty then none
  else some (w.drop (min (w.takeWhile isSpaceCh).length (w.length - 1)))

/-- Matching `\s*<name>\s*=\s*([^;]+)` at one candidate position. -/
def cookieBodyAt (cs : List Char) (name : List Char) : Option (List Char) :=
  let cs1 := cs.dropWhile isSpaceCh
  if name.isPrefixOf cs1 then
    match (cs1.drop name.length).dropWhile isSpaceCh with
    | '=' :: cs3 => cookieValue cs3
    | _ => none
  else none

/-- Try the pattern after each `;`, left to right. -/
def scanSemis : List Char → List Char → Option (List Char)
  | [], _ => none
  | c :: rest, name =>
    if c == ';' then
      match cookieBodyAt rest name with
      | some v => some v
      | none => scanSemis rest name
    else scanSemis rest name

/-- `extractCookie`: first match of
`(^|;)\s*<name>\s*=\s*([^;]+)`, returning the captured value. The `^`
branch is the candidate at position 0; the `;` branch gives one
candidate after each semicolon. -/
def extractCookie (header name : String) : Option String :=
  match cookieBodyAt header.data name.data with
  | some v => some (String.mk v)
  | none =>
    match scanSemis header.data name.data with
    | some v => some (String.mk v)
    | none => none

/-- JavaScript `a || b` on extracted cookie strings (`null` and the
empty string are falsy). -/
def strOr (a b : Option String) : Option String :=
  match a with
  | some s => if s == "" then b else some s
  | none => b

/-- The token of an `Authorization` header that starts with
`"Bearer "`: `authHeader.substring(7)`. -/
def bearerToken (h : String) : Option String :=
  if "Bearer ".data.isPrefixOf h.data then some (String.mk (h.data.drop 7))
  else none

/-- Step 1 of the resolver: the bearer-header path. -/
def bearerStep (oracle : String → FetchResult) (auth : Option String) :
    Option User :=
  match auth with
  | none => none
  | some h =>
    match bearerToken h with
    | some tok => verifyGoogleToken oracle tok
    | none => none

/-- Steps 2–3 of the resolver: `CF_Authorization` first, then
`google_token` falling back to `authToken`, each non-fatal on failure. -/
def cookieSteps (oracle : String → FetchResult) (dec : String → Option JVal) :
    Option String → Option User
  | none => none
  | some ch =>
    match
      (match extractCookie ch "CF_Authorization" with
       | some jwt => parseCloudflareAccessJWT dec jwt
       | none => none) with
    | some u => some u
    | none =>
      match strOr (extractCookie ch "google_token") (extractCookie ch "authToken") with
      | some tok => verifyGoogleToken oracle tok
      | none => none

/-- The request data `/api/auth/me` consults. -/
structure AuthReq where
  authorization : Option String
  cookie : Option String

/-- The whole resolver (`onRequestGet`): bearer header first, cookies
only if it produced nothing. -/
def resolveIdentity (oracle : String → FetchResult)
    (dec : String → Option JVal) (req : AuthReq) : Option User :=
  match bearerStep oracle req.authorization with
  | some u => some u
  | none => cookieSteps oracle dec req.cookie

/-- HTTP status of the endpoint: 200 on an identity, else 401. -/
def authMeStatus (oracle : String → FetchResult)
    (dec : String → Option JVal) (req : AuthReq) : Nat :=
  match resolveIdentity oracle dec req with
  | some _ => 200
  | none => 401

example :
    extractCookie "CF_Authorization=h.p.s" "CF_Authorization" = some "h.p.s" := rfl

example :
    extractCookie "foo=1; google_token=tok" "google_token" = some "tok" := rfl

example : extractCookie "xCF_Authorization=v" "CF_Authorization" = none := rfl

example : splitDot "h.p.s".data = ["h".data, "p".data, "s".data] := rfl

theorem isPrefixOf_append_self (l r : List Char) : l.isPrefixOf (l ++ r) = true := by
  induction l with
  | nil => simp [List.isPrefixOf]
  | cons c cs ih => simp [List.isPrefixOf, List.cons_append, ih]

theorem bearerToken_bearer (t : String) : bearerToken ("Bearer " ++ t) = some t := by
  unfold bearerToken
  have h1 : ("Bearer " ++ t).data = "Bearer ".data ++ t.data := rfl
  rw [h1, isPrefixOf_append_self, if_pos rfl]
  have h7 : (7 : Nat) = "Bearer ".data.length := rfl
  rw [h7]
  have h2 : ("Bearer ".data ++ t.data).drop "Bearer ".data.length = t.data :=
    List.drop_left _ _
  rw [h2]

theorem isNullV_eq_false (v : JVal) (h : v ≠ .null) : isNullV v = false := by
  cases v <;> first | rfl | exact absurd rfl h

/-- C1: with a bearer token whose introspection response has no `error`
field and the configured audience, the resolver answers with the
identity built from the introspection response even when a well-formed
`CF_Authorization` cookie is also present — step 1 wins. -/
theorem bearer_over_cookie (oracle : String → FetchResult)
    (dec : String → Option JVal) (req : AuthReq) (t : String) (data : JVal)
    (ch jwt : String) (u' : User)
    (hauth : req.authorization = some ("Bearer " ++ t))
    (hok : oracle t = .ok data)
    (herr : jsGet data "error" = none)
    (haud : jsGet data "aud" = some (.str CLIENT_ID))
    (hcookie : req.cookie = some ch)
    (hcf : extractCookie ch "CF_Authorization" = some jwt)
    (hjwt : parseCloudflareAccessJWT dec jwt = some u') :
    resolveIdentity oracle dec req = some (mkGoogleUser data) := by
  have hnn : isNullV data = false := by
    cases data <;> first | rfl | simp [jsGet] at haud
  have hverify : verifyGoogleToken oracle t = some (mkGoogleUser data) := by
    simp [verifyGoogleToken, hok, hnn, herr, audOk, haud, truthy]
  have hb : bearerStep oracle req.authorization = some (mkGoogleUser data) := by
    rw [hauth]
    simp [bearerStep, bearerToken_bearer, hverify]
  simp [resolveIdentity, hb]

/-- C1 witness: both credentials present and valid; the answer is the
introspection-built identity. -/
theorem bearer_over_cookie_witness :
    resolveIdentity
        (fun _ => .ok (.obj [("aud", .str CLIENT_ID), ("email", .str "u@example.com")]))
        (fun _ => some (.obj [("email", .str "a@b.com")]))
        { authorization := some ("Bearer " ++ "tok")
        , cookie := some "CF_Authorization=h.p.s" } =
      some (mkGoogleUser (.obj [("aud", .str CLIENT_ID), ("email", .str "u@example.com")])) :=
  bearer_over_cookie _ _ _ "tok" _ "CF_Authorization=h.p.s" "h.p.s"
    (mkCFUser (.obj [("email", .str "a@b.com")]))
    rfl rfl rfl rfl rfl rfl rfl

/-- C2: with no Authorization header and a `CF_Authorization` cookie
whose middle segment decodes to
`{"email":"a@b.com","given_name":"A"}`, resolution succeeds with email
`a@b.com`, name `A` and `email_verified` forced `true`; the signature
segment is an arbitrary string and is never consulted. -/
theorem cf_cookie_identity (oracle : String → FetchResult)
    (dec : String → Option JVal) (req : AuthReq) (ch jwt : String)
    (hseg pseg sseg : List Char)
    (hauth : req.authorization = none)
    (hcookie : req.cookie = some ch)
    (hcf : extractCookie ch "CF_Authorization" = some jwt)
    (hsplit : splitDot jwt.data = [hseg, pseg, sseg])
    (hdec : dec (String.mk (b64fixChars pseg)) =
      some (.obj [("email", .str "a@b.com"), ("given_name", .str "A")])) :
    resolveIdentity oracle dec req =
      some { email := some (.str "a@b.com")
           , name := some (.str "A")
           , picture := some .null
           , email_verified := some (.bool true) } := by
  have hps : payloadSegment jwt = some pseg := by
    unfold payloadSegment
    rw [hsplit]
  have hparse : parseCloudflareAccessJWT dec jwt =
      some (mkCFUser (.obj [("email", .str "a@b.com"), ("given_name", .str "A")])) := by
    unfold parseCloudflareAccessJWT
    rw [hps]
    simp only [hdec]
    rfl
  have hb : bearerStep oracle req.authorization = none := by
    rw [hauth]
    rfl
  have hcs : cookieSteps oracle dec req.cookie =
      some (mkCFUser (.obj [("email", .str "a@b.com"), ("given_name", .str "A")])) := by
    rw [hcookie]
    simp only [cookieSteps, hcf, hparse]
  unfold resolveIdentity
  rw [hb, hcs]
  rfl

/-- C2 witness at a concrete cookie and decoder. -/
theorem cf_cookie_identity_witness :
    resolveIdentity (fun _ => .netErr)
        (fun _ => some (.obj [("email", .str "a@b.com"), ("given_name", .str "A")]))
        { authorization := none, cookie := some "CF_Authorization=h.p.s" } =
      some { email := some (.str "a@b.com")
           , name := some (.str "A")
           , picture := some .null
           , email_verified := some (.bool true) } :=
  cf_cookie_identity _ _ _ "CF_Authorization=h.p.s" "h.p.s"
    "h".data "p".data "s".data rfl rfl rfl rfl rfl

/-- C4: a bearer token whose introspection response carries a foreign
audience never resolves; the resolver's answer is exactly the cookie
fallback chain's, and the endpoint 401s precisely when that chain also
fails. -/
theorem aud_mismatch_falls_through (oracle : String → FetchResult)
    (dec : String → Option JVal) (req : AuthReq) (t : String) (data : JVal)
    (hauth : req.authorization = some ("Bearer " ++ t))
    (hok : oracle t = .ok data)
    (haud : jsGet data "aud" ≠ some (.str CLIENT_ID)) :
    verifyGoogleToken oracle t = none ∧
    resolveIdentity oracle dec req = cookieSteps oracle dec req.cookie ∧
    (authMeStatus oracle dec req = 401 ↔ cookieSteps oracle dec req.cookie = none) := by
  have haud' : audOk data = false := by
    unfold audOk
    cases hg : jsGet data "aud" with
    | none => rfl
    | some v =>
      cases v with
      | str s =>
        by_cases hs : s = CLIENT_ID
        · subst hs
          exact absurd hg haud
        · simp [hs]
      | null => rfl
      | bool b => rfl
      | num n => rfl
      | arr xs => rfl
      | obj fs => rfl
  have hv : verifyGoogleToken oracle t = none := by
    simp [verifyGoogleToken, hok, haud', ite_self]
  have hb : bearerStep oracle req.authorization = none := by
    rw [hauth]
    simp [bearerStep, bearerToken_bearer, hv]
  refine ⟨hv, ?_, ?_⟩
  · simp [resolveIdentity, hb]
  · simp only [authMeStatus, resolveIdentity, hb]
    cases cookieSteps oracle dec req.cookie <;> simp

/-- C4 witness: a mismatched audience with no cookies gives the 401. -/
theorem aud_mismatch_falls_through_witness :
    verifyGoogleToken (fun _ => .ok (.obj [("aud", .str "other")])) "tok" = none ∧
    resolveIdentity (fun _ => .ok (.obj [("aud", .str "other")]))
        (fun _ => none)
        { authorization := some ("Bearer " ++ "tok"), cookie := none } =
      cookieSteps (fun _ => .ok (.obj [("aud", .str "other")])) (fun _ => none) none ∧
    (authMeStatus (fun _ => .ok (.obj [("aud", .str "other")]))
        (fun _ => none)
        { authorization := some ("Bearer " ++ "tok"), cookie := none } = 401 ↔
      cookieSteps (fun _ => .ok (.obj [("aud", .str "other")])) (fun _ => none) none = none) :=
  aud_mismatch_falls_through _ _ _ "tok" (.obj [("aud", .str "other")]) rfl rfl
    (by
      intro h
      have h' : some (JVal.str "other") = some (JVal.str CLIENT_ID) := h
      injection h' with h1
      injection h1 with h2
      exact absurd h2 (by decide))

theorem verifyGoogleToken_inv (oracle : String → FetchResult) (t : String)
    (u : User) (h : verifyGoogleToken oracle t = some u) :
    ∃ data, oracle t = .ok data ∧ truthy (jsGet data "error") = false ∧
      audOk data = true ∧ u = mkGoogleUser data := by
  unfold verifyGoogleToken at h
  cases ho : oracle t with
  | netErr => rw [ho] at h; simp at h
  | httpErr st => rw [ho] at h; simp at h
  | jsonErr => rw [ho] at h; simp at h
  | ok data =>
    rw [ho] at h
    simp only at h
    by_cases h1 : isNullV data = true
    · rw [if_pos h1] at h
      simp at h
    · rw [if_neg h1] at h
      by_cases h2 : truthy (jsGet data "error") = true
      · rw [if_pos h2] at h
        simp at h
      · rw [if_neg h2] at h
        by_cases h3 : audOk data = true
        · rw [if_pos h3] at h
          injection h with h4
          exact ⟨data, rfl, Bool.eq_false_iff.mpr h2, h3, h4.symm⟩
        · rw [if_neg h3] at h
          simp at h

theorem parseCloudflareAccessJWT_inv (dec : String → Option JVal) (jwt : String)
    (u : User) (h : parseCloudflareAccessJWT dec jwt = some u) :
    ∃ p payload, payloadSegment jwt = some p ∧
      dec (String.mk (b64fixChars p)) = some payload ∧ u = mkCFUser payload := by
  unfold parseCloudflareAccessJWT at h
  cases hp : payloadSegment jwt with
  | none => rw [hp] at h; simp at h
  | some p =>
    rw [hp] at h
    simp only at h
    cases hdec : dec (String.mk (b64fixChars p)) with
    | none => rw [hdec] at h; simp at h
    | some payload =>
      rw [hdec] at h
      simp only at h
      split at h
      · simp at h
      · injection h with h1
        exact ⟨p, payload, rfl, hdec, h1.symm⟩

theorem cookieSteps_inv (oracle : String → FetchResult)
    (dec : String → Option JVal) (copt : Option String) (u : User)
    (h : cookieSteps oracle dec copt = some u) :
    ∃ ch, copt = some ch ∧
      ((∃ jwt, extractCookie ch "CF_Authorization" = some jwt ∧
          parseCloudflareAccessJWT dec jwt = some u) ∨
       (∃ t, strOr (extractCookie ch "google_token")
            (extractCookie ch "authToken") = some t ∧
          verifyGoogleToken oracle t = some u)) := by
  cases copt with
  | none => simp [cookieSteps] at h
  | some c =>
    refine ⟨c, rfl, ?_⟩
    simp only [cookieSteps] at h
    cases hcf : extractCookie c "CF_Authorization" with
    | some jwt =>
      rw [hcf] at h
      simp only at h
      cases hp : parseCloudflareAccessJWT dec jwt with
      | some u2 =>
        rw [hp] at h
        simp only [Option.some.injEq] at h
        subst h
        exact Or.inl ⟨jwt, rfl, hp⟩
      | none =>
        rw [hp] at h
        simp only at h
        cases hg : strOr (extractCookie c "google_token") (extractCookie c "authToken") with
        | some tok =>
          rw [hg] at h
          exact Or.inr ⟨tok, rfl, h⟩
        | none => rw [hg] at h; simp at h
    | none =>
      rw [hcf] at h
      simp only at h
      cases hg : strOr (extractCookie c "google_token") (extractCookie c "authToken") with
      | some tok =>
        rw [hg] at h
        exact Or.inr ⟨tok, rfl, h⟩
      | none => rw [hg] at h; simp at h

theorem bearerStep_inv (oracle : String → FetchResult) (auth : Option String)
    (u : User) (h : bearerStep oracle auth = some u) :
    ∃ hdr t, auth = some hdr ∧ bearerToken hdr = some t ∧
      verifyGoogleToken oracle t = some u := by
  cases auth with
  | none => simp [bearerStep] at h
  | some hdr =>
    simp only [bearerStep] at h
    cases hb : bearerToken hdr with
    | some tok =>
      rw [hb] at h
      exact ⟨hdr, tok, rfl, hb, h⟩
    | none => rw [hb] at h; simp at h

/-- C8 (amended): every identity the resolver produces comes from one
of the two builders applied to the actual credential. On the bearer and
legacy-cookie paths it is `mkGoogleUser` of the introspection response
for the very token extracted from the request, so its display name is
`data.name || data.email`. On the `CF_Authorization` path it is
`mkCFUser` of the decode of the extracted cookie token's middle
segment, so its display name is the full
`name || given_name || family_name || email || 'User'` chain. Only the
cookie path implements the full fallback chain. -/
theorem resolved_display_name_rule (oracle : String → FetchResult)
    (dec : String → Option JVal) (req : AuthReq) (u : User)
    (h : resolveIdentity oracle dec req = some u) :
    (∃ t data,
      ((∃ hdr, req.authorization = some hdr ∧ bearerToken hdr = some t) ∨
       (∃ ch, req.cookie = some ch ∧
         strOr (extractCookie ch "google_token")
           (extractCookie ch "authToken") = some t)) ∧
      oracle t = .ok data ∧
      truthy (jsGet data "error") = false ∧ audOk data = true ∧
      u = mkGoogleUser data ∧
      u.name = jsOr (jsGet data "name") (jsGet data "email")) ∨
    (∃ ch jwt p payload,
      req.cookie = some ch ∧
      extractCookie ch "CF_Authorization" = some jwt ∧
      payloadSegment jwt = some p ∧
      dec (String.mk (b64fixChars p)) = some payload ∧
      u = mkCFUser payload ∧
      u.name = some (firstTruthy
        [jsGet payload "name", jsGet payload "given_name",
         jsGet payload "family_name", jsGet payload "email"] (.str "User"))) := by
  unfold resolveIdentity at h
  cases hb : bearerStep oracle req.authorization with
  | some u2 =>
    rw [hb] at h
    simp only [Option.some.injEq] at h
    subst h
    obtain ⟨hdr, t, hha, hbt, ht⟩ := bearerStep_inv oracle req.authorization u2 hb
    obtain ⟨data, hdata, herr, haud, hu⟩ := verifyGoogleToken_inv oracle t u2 ht
    exact Or.inl ⟨t, data, Or.inl ⟨hdr, hha, hbt⟩, hdata, herr, haud, hu,
      by rw [hu]; rfl⟩
  | none =>
    rw [hb] at h
    simp only at h
    obtain ⟨ch, hch, hrest⟩ := cookieSteps_inv oracle dec req.cookie u h
    rcases hrest with ⟨jwt, hcf, hj⟩ | ⟨t, hg, ht⟩
    · obtain ⟨p, payload, hp, hdec, hu⟩ := parseCloudflareAccessJWT_inv dec jwt u hj
      exact Or.inr ⟨ch, jwt, p, payload, hch, hcf, hp, hdec, hu, by rw [hu]; rfl⟩
    · obtain ⟨data, hdata, herr, haud, hu⟩ := verifyGoogleToken_inv oracle t u ht
      exact Or.inl ⟨t, data, Or.inr ⟨ch, hch, hg⟩, hdata, herr, haud, hu,
        by rw [hu]; rfl⟩

/-- C8 witness: a concrete bearer-path identity; the theorem pins it to
`mkGoogleUser` of the oracle's response for the extracted token, with
the `data.name || data.email` name rule. -/
theorem resolved_display_name_rule_witness :
    (∃ t data,
      ((∃ hdr, (some ("Bearer " ++ "tok") : Option String) = some hdr ∧
          bearerToken hdr = some t) ∨
       (∃ ch, (none : Option String) = some ch ∧
         strOr (extractCookie ch "google_token")
           (extractCookie ch "authToken") = some t)) ∧
      (fun (_ : String) =>
        FetchResult.ok (.obj [("aud", .str CLIENT_ID), ("email", .str "u@example.com")])) t =
        .ok data ∧
      truthy (jsGet data "error") = false ∧ audOk data = true ∧
      mkGoogleUser (.obj [("aud", .str CLIENT_ID), ("email", .str "u@example.com")]) =
        mkGoogleUser data ∧
      (mkGoogleUser (.obj [("aud", .str CLIENT_ID), ("email", .str "u@example.com")])).name =
        jsOr (jsGet data "name") (jsGet data "email")) ∨
    (∃ ch jwt p payload,
      (none : Option String) = some ch ∧
      extractCookie ch "CF_Authorization" = some jwt ∧
      payloadSegment jwt = some p ∧
      (fun (_ : String) => (none : Option JVal)) (String.mk (b64fixChars p)) = some payload ∧
      mkGoogleUser (.obj [("aud", .str CLIENT_ID), ("email", .str "u@example.com")]) =
        mkCFUser payload ∧
      (mkGoogleUser (.obj [("aud", .str CLIENT_ID), ("email", .str "u@example.com")])).name =
        some (firstTruthy
          [jsGet payload "name", jsGet payload "given_name",
           jsGet payload "family_name", jsGet payload "email"] (.str "User"))) :=
  resolved_display_name_rule
    (fun _ => .ok (.obj [("aud", .str CLIENT_ID), ("email", .str "u@example.com")]))
    (fun _ => none)
    { authorization := some ("Bearer " ++ "tok"), cookie := none }
    (mkGoogleUser (.obj [("aud", .str CLIENT_ID), ("email", .str "u@example.com")]))
    rfl

/-- The display-name rule exactly as the claim words it for all three
paths: the first present-and-truthy of `name`, `given_name`,
`family_name`, `email`, with literal fallback `"User"`. -/
def claimDisplayName (claims : JVal) : JVal :=
  firstTruthy
    [jsGet claims "name", jsGet claims "given_name",
     jsGet claims "family_name", jsGet claims "email"] (.str "User")

/-- C8 counterexample: a bearer-path introspection response with
`given_name` but no `name` resolves with display name `"e@x"` (the
email), while the claimed chain would give `"A"` — the bearer path uses
only `name || email`. -/
theorem resolved_display_name_cex :
    resolveIdentity
        (fun _ => .ok (.obj [("aud", .str CLIENT_ID), ("email", .str "e@x"),
          ("given_name", .str "A")]))
        (fun _ => none)
        { authorization := some ("Bearer " ++ "t"), cookie := none } =
      some (mkGoogleUser (.obj [("aud", .str CLIENT_ID), ("email", .str "e@x"),
        ("given_name", .str "A")])) ∧
    (mkGoogleUser (.obj [("aud", .str CLIENT_ID), ("email", .str "e@x"),
        ("given_name", .str "A")])).name = some (.str "e@x") ∧
    claimDisplayName (.obj [("aud", .str CLIENT_ID), ("email", .str "e@x"),
        ("given_name", .str "A")]) = .str "A" ∧
    JVal.str "e@x" ≠ JVal.str "A" := by
  refine ⟨rfl, rfl, rfl, ?_⟩
  intro hc
  injection hc with h1
  exact absurd h1 (by decide)

/-! ## GET /api/recipe camelCase revision: `toCamelCase` -/

/-- The character class of the regex range `a` to `z`. -/
def isLowAZ (c : Char) : Bool := 97 ≤ c.toNat && c.toNat ≤ 122

/-- `letter.toUpperCase()` for an ASCII lowercase letter. -/
def upAZ (c : Char) : Char := Char.ofNat (c.toNat - 32)

/-- One global-replace pass of the key regex: each underscore followed
by a lowercase letter becomes that letter uppercased; matches are
non-overlapping, left to right. -/
def camelChars : List Char → List Char
  | [] => []
  | [c] => [c]
  | c :: d :: rest =>
    if c = '_' ∧ isLowAZ d = true then upAZ d :: camelChars rest
    else c :: camelChars (d :: rest)

theorem upAZ_toNat (c : Char) (h : isLowAZ c = true) :
    (upAZ c).toNat = c.toNat - 32 := by
  simp only [isLowAZ, Bool.and_eq_true, decide_eq_true_eq] at h
  have hv : (c.toNat - 32).isValidChar := Or.inl (by omega)
  unfold upAZ Char.ofNat
  rw [dif_pos hv]
  rfl

theorem isLowAZ_upAZ (c : Char) (h : isLowAZ c = true) :
    isLowAZ (upAZ c) = false := by
  have ht := upAZ_toNat c h
  simp only [isLowAZ, Bool.and_eq_true, decide_eq_true_eq] at h
  simp only [isLowAZ, ht, Bool.and_eq_false_iff, decide_eq_false_iff_not]
  left
  omega

theorem upAZ_ne_underscore (c : Char) (h : isLowAZ c = true) : upAZ c ≠ '_' := by
  intro he
  have h95 : (upAZ c).toNat = 95 := by rw [he]; rfl
  rw [upAZ_toNat c h] at h95
  simp only [isLowAZ, Bool.and_eq_true, decide_eq_true_eq] at h
  omega

theorem camelChars_cons2_pos (c d : Char) (rest : List Char)
    (h : c = '_' ∧ isLowAZ d = true) :
    camelChars (c :: d :: rest) = upAZ d :: camelChars rest := by
  simp only [camelChars]
  rw [if_pos h]

theorem camelChars_cons2_neg (c d : Char) (rest : List Char)
    (h : ¬(c = '_' ∧ isLowAZ d = true)) :
    camelChars (c :: d :: rest) = c :: camelChars (d :: rest) := by
  simp only [camelChars]
  rw [if_neg h]

theorem camelChars_cons_of_ne (c : Char) (l : List Char) (h : c ≠ '_') :
    camelChars (c :: l) = c :: camelChars l := by
  cases l with
  | nil => rfl
  | cons d rest =>
    exact camelChars_cons2_neg c d rest (fun hc => h hc.1)

theorem camelChars_head_not_low (d : Char) (rest : List Char)
    (hd : isLowAZ d = false) :
    ∃ e t, camelChars (d :: rest) = e :: t ∧ isLowAZ e = false := by
  cases rest with
  | nil => exact ⟨d, [], rfl, hd⟩
  | cons e' t' =>
    by_cases hc : d = '_' ∧ isLowAZ e' = true
    · exact ⟨upAZ e', camelChars t', camelChars_cons2_pos d e' t' hc,
        isLowAZ_upAZ e' hc.2⟩
    · exact ⟨d, camelChars (e' :: t'), camelChars_cons2_neg d e' t' hc, hd⟩

theorem camelChars_idem (l : List Char) :
    camelChars (camelChars l) = camelChars l := by
  have main : ∀ n (l : List Char), l.length ≤ n →
      camelChars (camelChars l) = camelChars l := by
    intro n
    induction n using Nat.strong_induction_on with
    | _ n ih =>
      intro l hl
      match l with
      | [] => rfl
      | [c] => rfl
      | c :: d :: rest =>
        simp only [List.length_cons] at hl
        by_cases hc : c = '_' ∧ isLowAZ d = true
        · rw [camelChars_cons2_pos c d rest hc,
            camelChars_cons_of_ne _ _ (upAZ_ne_underscore d hc.2)]
          congr 1
          cases n with
          | zero => omega
          | succ m => exact ih m (by omega) rest (by omega)
        · by_cases hu : c = '_'
          · have hdlow : isLowAZ d = false := by
              by_cases hd : isLowAZ d = true
              · exact absurd ⟨hu, hd⟩ hc
              · exact Bool.eq_false_iff.mpr hd
            obtain ⟨e, t, het, helow⟩ := camelChars_head_not_low d rest hdlow
            rw [camelChars_cons2_neg c d rest hc, het,
              camelChars_cons2_neg c e t (fun hcc => by
                rw [helow] at hcc
                exact Bool.false_ne_true hcc.2)]
            congr 1
            rw [← het]
            cases n with
            | zero => omega
            | succ m => exact ih m (by omega) (d :: rest) (by simp; omega)
          · rw [camelChars_cons_of_ne c (d :: rest) hu,
              camelChars_cons_of_ne c (camelChars (d :: rest)) hu]
            congr 1
            cases n with
            | zero => omega
            | succ m => exact ih m (by omega) (d :: rest) (by simp; omega)
  exact main l.length l le_rfl

/-- `key.replace` of the snake-case regex on a whole string. -/
def camelStr (s : String) : String := String.mk (camelChars s.data)

theorem camelStr_idem (s : String) : camelStr (camelStr s) = camelStr s := by
  unfold camelStr
  have hdata : (String.mk (camelChars s.data)).data = camelChars s.data := rfl
  rw [hdata, camelChars_idem]

mutual

/-- `toCamelCase`: primitives unchanged, arrays mapped, objects rebuilt
by a `reduce` that assigns `acc[camelKey] = toCamelCase(value)` for
each key in enumeration order. -/
def toCamelCase : JVal → JVal
  | .null => .null
  | .bool b => .bool b
  | .num n => .num n
  | .str s => .str s
  | .arr xs => .arr (camelList xs)
  | .obj fs => .obj (spreadInto [] (camelFields fs))

/-- `obj.map(toCamelCase)` over an array's elements. -/
def camelList : List JVal → List JVal
  | [] => []
  | v :: vs => toCamelCase v :: camelList vs

/-- The per-key transform of the object `reduce`: camelized key, value
recursively converted. -/
def camelFields : List (String × JVal) → List (String × JVal)
  | [] => []
  | (k, v) :: fs => (camelStr k, toCamelCase v) :: camelFields fs

end

theorem camelList_eq_map (xs : List JVal) : camelList xs = xs.map toCamelCase := by
  induction xs with
  | nil => rfl
  | cons v vs ih => simp [camelList, ih]

theorem camelFields_eq_map (fs : List (String × JVal)) :
    camelFields fs = fs.map (fun p => (camelStr p.1, toCamelCase p.2)) := by
  induction fs with
  | nil => rfl
  | cons p fs ih =>
    obtain ⟨k, v⟩ := p
    simp [camelFields, ih]

theorem mem_upsert (fs : List (String × JVal)) (k : String) (v : JVal)
    (p : String × JVal) (h : p ∈ upsert fs k v) : p = (k, v) ∨ p ∈ fs := by
  induction fs with
  | nil =>
    simp [upsert] at h
    exact Or.inl h
  | cons q rest ih =>
    obtain ⟨k', v'⟩ := q
    by_cases hk : k' = k
    · subst hk
      simp only [upsert, beq_self_eq_true, if_true] at h
      rcases List.mem_cons.mp h with h1 | h1
      · exact Or.inl h1
      · exact Or.inr (List.mem_cons_of_mem _ h1)
    · rw [upsert, if_neg (by simp [hk])] at h
      rcases List.mem_cons.mp h with h1 | h1
      · exact Or.inr (List.mem_cons.mpr (Or.inl h1))
      · rcases ih h1 with h2 | h2
        · exact Or.inl h2
        · exact Or.inr (List.mem_cons_of_mem _ h2)

theorem mem_keys_upsert (fs : List (String × JVal)) (k : String) (v : JVal)
    (q : String) (h : q ∈ (upsert fs k v).map Prod.fst) :
    q = k ∨ q ∈ fs.map Prod.fst := by
  rcases List.mem_map.mp h with ⟨p, hp, hq⟩
  rcases mem_upsert fs k v p hp with h1 | h1
  · left
    rw [← hq, h1]
  · exact Or.inr (List.mem_map.mpr ⟨p, h1, hq⟩)

theorem nodup_keys_upsert (fs : List (String × JVal)) (k : String) (v : JVal)
    (h : (fs.map Prod.fst).Nodup) : ((upsert fs k v).map Prod.fst).Nodup := by
  induction fs with
  | nil => simp [upsert]
  | cons q rest ih =>
    obtain ⟨k', v'⟩ := q
    simp only [List.map_cons, List.nodup_cons] at h
    by_cases hk : k' = k
    · subst hk
      simp only [upsert, beq_self_eq_true, if_true, List.map_cons, List.nodup_cons]
      exact ⟨h.1, h.2⟩
    · rw [upsert, if_neg (by simp [hk])]
      simp only [List.map_cons, List.nodup_cons]
      refine ⟨?_, ih h.2⟩
      intro hmem
      rcases mem_keys_upsert rest k v k' hmem with h1 | h1
      · exact hk h1
      · exact h.1 h1

theorem upsert_of_not_mem (fs : List (String × JVal)) (k : String) (v : JVal)
    (h : k ∉ fs.map Prod.fst) : upsert fs k v = fs ++ [(k, v)] := by
  induction fs with
  | nil => rfl
  | cons q rest ih =>
    obtain ⟨k', v'⟩ := q
    simp only [List.map_cons, List.mem_cons] at h
    push_neg at h
    have hk : ¬(k' = k) := fun hc => h.1 hc.symm
    rw [upsert, if_neg (by simp [hk]), ih h.2]
    rfl

theorem spreadInto_mem (ds : List (String × JVal)) :
    ∀ (acc : List (String × JVal)) (p : String × JVal),
      p ∈ spreadInto acc ds → p ∈ acc ∨ p ∈ ds := by
  induction ds with
  | nil => intro acc p h; exact Or.inl h
  | cons q ds ih =>
    intro acc p h
    obtain ⟨k, v⟩ := q
    have hstep : spreadInto acc ((k, v) :: ds) = spreadInto (upsert acc k v) ds := rfl
    rw [hstep] at h
    rcases ih (upsert acc k v) p h with h1 | h1
    · rcases mem_upsert acc k v p h1 with h2 | h2
      · exact Or.inr (h2 ▸ List.mem_cons_self _ _)
      · exact Or.inl h2
    · exact Or.inr (List.mem_cons_of_mem _ h1)

theorem spreadInto_nodup_keys (ds : List (String × JVal)) :
    ∀ (acc : List (String × JVal)), (acc.map Prod.fst).Nodup →
      ((spreadInto acc ds).map Prod.fst).Nodup := by
  induction ds with
  | nil => intro acc h; exact h
  | cons q ds ih =>
    intro acc h
    obtain ⟨k, v⟩ := q
    exact ih (upsert acc k v) (nodup_keys_upsert acc k v h)

theorem spreadInto_of_fresh (ds : List (String × JVal)) :
    ∀ (acc : List (String × JVal)),
      (acc.map Prod.fst ++ ds.map Prod.fst).Nodup →
      spreadInto acc ds = acc ++ ds := by
  induction ds with
  | nil => intro acc _; simp [spreadInto]
  | cons q ds ih =>
    intro acc h
    obtain ⟨k, v⟩ := q
    have hk : k ∉ acc.map Prod.fst := by
      simp only [List.map_cons, List.nodup_append, List.nodup_cons] at h
      intro hmem
      exact h.2.2 hmem (List.mem_cons_self _ _)
    have hstep : spreadInto acc ((k, v) :: ds) = spreadInto (upsert acc k v) ds := rfl
    rw [hstep, upsert_of_not_mem acc k v hk, ih]
    · simp
    · rw [List.map_append]
      have hperm : acc.map Prod.fst ++ [(k, v)].map Prod.fst ++ ds.map Prod.fst =
          acc.map Prod.fst ++ ((k, v) :: ds).map Prod.fst := by
        simp
      rw [hperm]
      exact h

theorem tcc_arr (xs : List JVal) : toCamelCase (.arr xs) = .arr (camelList xs) := by
  simp [toCamelCase]

theorem tcc_obj (fs : List (String × JVal)) :
    toCamelCase (.obj fs) = .obj (spreadInto [] (camelFields fs)) := by
  simp [toCamelCase]

theorem toCamelCase_idem_aux : ∀ n (v : JVal), sizeOf v ≤ n →
    toCamelCase (toCamelCase v) = toCamelCase v := by
  intro n
  induction n using Nat.strong_induction_on with
  | _ n ih =>
    intro v hv
    cases v with
    | null => rfl
    | bool b => rfl
    | num m => rfl
    | str s => rfl
    | arr xs =>
      have hsize : sizeOf (JVal.arr xs) = 1 + sizeOf xs := by simp
      rw [tcc_arr, tcc_arr]
      congr 1
      rw [camelList_eq_map, camelList_eq_map, List.map_map]
      apply List.map_congr_left
      intro a ha
      have h1 := List.sizeOf_lt_of_mem ha
      have hgoal : toCamelCase (toCamelCase a) = toCamelCase a := by
        cases n with
        | zero => omega
        | succ m => exact ih m (by omega) a (by omega)
      simpa [Function.comp] using hgoal
    | obj fs =>
      have hsize : sizeOf (JVal.obj fs) = 1 + sizeOf fs := by simp
      rw [tcc_obj, tcc_obj]
      congr 1
      have hF : ∀ p ∈ spreadInto [] (camelFields fs),
          (camelStr p.1, toCamelCase p.2) = p := by
        intro p hp
        rcases spreadInto_mem _ _ _ hp with h0 | h0
        · simp at h0
        · rw [camelFields_eq_map] at h0
          rcases List.mem_map.mp h0 with ⟨q, hq, hpq⟩
          obtain ⟨qk, qv⟩ := q
          have h1 := List.sizeOf_lt_of_mem hq
          have hq2 : sizeOf qv < sizeOf fs := by
            simp only [Prod.mk.sizeOf_spec] at h1
            omega
          have hqv : toCamelCase (toCamelCase qv) = toCamelCase qv := by
            cases n with
            | zero => omega
            | succ m => exact ih m (by omega) qv (by omega)
          rw [← hpq]
          simp only
          rw [camelStr_idem, hqv]
      have h1 : camelFields (spreadInto [] (camelFields fs)) =
          spreadInto [] (camelFields fs) := by
        rw [camelFields_eq_map]
        rw [show (spreadInto [] (camelFields fs)).map
              (fun p => (camelStr p.1, toCamelCase p.2)) =
            (spreadInto [] (camelFields fs)).map id from
          List.map_congr_left (fun a ha => hF a ha), List.map_id]
      rw [h1]
      apply spreadInto_of_fresh
      simp only [List.map_nil, List.nil_append]
      exact spreadInto_nodup_keys (camelFields fs) [] (by simp)

/-- C10: the snake-case-to-camelCase conversion of the camelCase
revision of the single-recipe fetch is idempotent on every JSON value,
nested arrays and objects included. -/
theorem toCamelCase_idempotent (v : JVal) :
    toCamelCase (toCamelCase v) = toCamelCase v :=
  toCamelCase_idem_aux (sizeOf v) v le_rfl
